import Mathlib

/-!
# Verification of the OnChainGS splat-processing core (`src/core/SplatProcesser.js`)

A shallow embedding of the chunk-splitting / group-merging pipeline of the
`SplatProcesser` class.  Files are modelled as lists of characters (the header
is ASCII, and the binary vertex payload is carried through byte-for-byte, so a
`List Char` faithfully represents the byte sequences the JavaScript code
manipulates).  JavaScript floating-point arithmetic in the chunk-sizing
formula is modelled with exact rationals; at every concrete input appearing in
a theorem below the two agree.
-/

namespace OnChainGS

/-! ## Generic byte-sequence utilities (JS string primitives) -/

/-- First occurrence of `pat` in `l` (the position semantics of JS
`String.prototype.indexOf`), `none` when `pat` never occurs. -/
def firstOcc (l pat : List Char) : Option Nat :=
  match l with
  | [] => if pat.isPrefixOf ([] : List Char) then some 0 else none
  | _ :: t => if pat.isPrefixOf l then some 0 else (firstOcc t pat).map (· + 1)

/-- JS `indexOf`: position of the first occurrence, `-1` when absent. -/
def jsIndexOf (l pat : List Char) : Int :=
  match firstOcc l pat with
  | some p => (p : Int)
  | none => -1

/-- JS `String.prototype.includes`. -/
def hasSubstr (l pat : List Char) : Bool :=
  (firstOcc l pat).isSome

/-- JS `String.prototype.split(sep)` for a one-character separator. -/
def splitOnChar (sep : Char) : List Char → List (List Char)
  | [] => [[]]
  | c :: t =>
    if c = sep then [] :: splitOnChar sep t
    else
      match splitOnChar sep t with
      | [] => [[c]]
      | h :: r => (c :: h) :: r

/-- `Array.prototype.join(sep)` for a one-character separator. -/
def joinChar (sep : Char) : List (List Char) → List Char
  | [] => []
  | [l] => l
  | l :: h :: r => l ++ sep :: joinChar sep (h :: r)

/-- Split on newline, as the source does with `split('\n')`. -/
def splitOnNl (l : List Char) : List (List Char) := splitOnChar '\n' l

/-- Join with newline, as the source does with `join('\n')`. -/
def joinNl (ls : List (List Char)) : List Char := joinChar '\n' ls

/-- JS `String.prototype.trim` (whitespace stripped from both ends). -/
def trimChars (l : List Char) : List Char :=
  ((l.dropWhile Char.isWhitespace).reverse.dropWhile Char.isWhitespace).reverse

/-- `Buffer.prototype.slice(s, e)`: the bytes in `[s, e)`. -/
def sliceBytes (l : List Char) (s e : Nat) : List Char :=
  (l.drop s).take (e - s)

/-! ## Decimal numerals (JS number-to-string interpolation and `parseInt`) -/

/-- The decimal digit character for `d < 10`. -/
def digitChar (d : Nat) : Char :=
  match d with
  | 0 => '0' | 1 => '1' | 2 => '2' | 3 => '3' | 4 => '4'
  | 5 => '5' | 6 => '6' | 7 => '7' | 8 => '8' | 9 => '9'
  | _ => '*'

/-- Fuel-driven digit emitter (least-significant digit pushed first onto
`acc`, so `acc` accumulates the numeral left-to-right). -/
def natDigitsAux : Nat → Nat → List Char → List Char
  | 0, _, acc => acc
  | fuel + 1, n, acc =>
    let acc' := digitChar (n % 10) :: acc
    if n < 10 then acc' else natDigitsAux fuel (n / 10) acc'

/-- The decimal numeral of `n`, as JS template interpolation prints a
non-negative integer. -/
def natDigits (n : Nat) : List Char := natDigitsAux (n + 1) n []

/-- Reference (fuel-free) form of `natDigits`, used only in proofs. -/
def natDigitsList (n : Nat) : List Char :=
  if _ : n < 10 then [digitChar n]
  else natDigitsList (n / 10) ++ [digitChar (n % 10)]
  termination_by n
  decreasing_by exact Nat.div_lt_self (by omega) (by omega)

/-- JS `parseInt` applied to a pure digit string. -/
def parseDigits (l : List Char) : Nat :=
  l.foldl (fun a c => a * 10 + (c.toNat - 48)) 0

/-- Model of JS `parseInt(tok)` on an optional token: the leading digit run is
parsed; no digits (or a missing token, i.e. `undefined`) gives `NaN`,
modelled as `none`. -/
def parseIntModel (s : Option (List Char)) : Option Nat :=
  match s with
  | none => none
  | some t =>
    let ds := t.takeWhile Char.isDigit
    if ds.isEmpty then none else some (parseDigits ds)

/-! ## Fixed pattern strings of the source -/

/-- The header terminator searched for by `readPlyHeader` / `readChunkPly`:
the string literal `'end_header\n'`. -/
def endPat : List Char := "end_header\n".toList

/-- The terminator line without its newline. -/
def ehLine : List Char := "end_header".toList

/-- The substring tested by `line.includes('element vertex')`. -/
def evBase : List Char := "element vertex".toList

/-- The prefix `'element vertex '` of the rewritten vertex-count line and of
the regex `/element vertex (\d+)/`. -/
def evSp : List Char := "element vertex ".toList

/-- A canonical vertex-count line `element vertex <n>`. -/
def evLine (n : Nat) : List Char := evSp ++ natDigits n

/-! ## `SplatProcesser` constants and `getTypeSize` (lines 11-12, 56-64) -/

/-- `const EXPECTED_COMPRESSION_RATE = 0.9` (line 11). -/
def EXPECTED_COMPRESSION_RATE : ℚ := 9 / 10

/-- `const BASE64_OVERHEAD = 1.25` (line 12). -/
def BASE64_OVERHEAD : ℚ := 5 / 4

/-- The `typeSizes` table of `getTypeSize` (lines 57-62). -/
def typeSizes : List (List Char × Nat) :=
  [("float32".toList, 4), ("float".toList, 4), ("float64".toList, 8),
   ("uint8".toList, 1), ("uchar".toList, 1),
   ("int32".toList, 4), ("int".toList, 4),
   ("uint32".toList, 4)]

/-- `getTypeSize` (lines 56-64): `typeSizes[typeName] || 4` — an absent key
silently falls back to the default width `4`. -/
def getTypeSize (typeName : List Char) : Nat :=
  match typeSizes.lookup typeName with
  | some n => n
  | none => 4

/-- `bytesPerVertex` as computed by `split` (lines 186-187): sum of the type
widths of the parsed property schema, in insertion order. -/
def bytesPerVertexOf (propertyTypes : List (List Char × List Char)) : Nat :=
  (propertyTypes.map (fun p => getTypeSize p.2)).sum

/-! ## Header parsing (`readPlyHeader`, lines 98-137) -/

/-- `headerEndIndex` (line 101): `indexOf('end_header\n') + 'end_header\n'.length`.
When the terminator is absent `indexOf` yields `-1`, so the index silently
becomes `10`. -/
def headerEndIndexOf (file : List Char) : Nat :=
  (jsIndexOf file endPat + (endPat.length : Int)).toNat

/-- `Map.prototype.set`: overwrite in place when the key exists, else append. -/
def mapSet (m : List (List Char × List Char)) (k v : List Char) :
    List (List Char × List Char) :=
  match m with
  | [] => [(k, v)]
  | (k', v') :: t => if k' = k then (k, v) :: t else (k', v') :: mapSet t k v

/-- The mutable fields touched by the header-scanning loop of
`readPlyHeader` (lines 106-126).  `vertexCount` is a JS number, initially
`0`; a `parseInt` that yields `NaN` is modelled as `none`. -/
structure ParseState where
  vertexCount : Option Nat
  propertyTypes : List (List Char × List Char)
  extraFNames : List (List Char)
deriving Repr, DecidableEq

/-- One iteration of the `for (const line of headerLines)` loop
(lines 107-126). -/
def processHeaderLine (st : ParseState) (line : List Char) : ParseState :=
  let trimmedLine := trimChars line
  if trimmedLine = [] then st
  else if hasSubstr trimmedLine evBase then
    { st with vertexCount := parseIntModel ((splitOnChar ' ' trimmedLine).get? 2) }
  else if "property".toList.isPrefixOf trimmedLine then
    let parts := splitOnChar ' ' trimmedLine
    if 3 ≤ parts.length then
      let propName := (parts.get? 2).getD []
      let propType := (parts.get? 1).getD []
      { st with
        propertyTypes := mapSet st.propertyTypes propName propType,
        extraFNames :=
          if "f_rest_".toList.isPrefixOf propName then st.extraFNames ++ [propName]
          else st.extraFNames }
    else st
  else st

/-- The parse state after scanning every line of the extracted header text
(fields start at their constructor values, lines 20-22). -/
def headerState (file : List Char) : ParseState :=
  (splitOnNl (file.take (headerEndIndexOf file))).foldl processHeaderLine
    ⟨some 0, [], []⟩

/-- The `if`-chain on `extraFNames.length` (lines 128-131): counts other than
0 / 9 / 24 / 45 leave `maxShDegree` at its previous value. -/
def shDegree (count prev : Nat) : Nat :=
  if count = 0 then 0
  else if count = 9 then 1
  else if count = 24 then 2
  else if count = 45 then 3
  else prev

/-- Everything `readPlyHeader` (lines 98-137) leaves behind: the instance
fields it assigns plus its return value.  The function is total — no code
path raises an error. -/
structure PlyInfo where
  originalHeader : List Char
  vertexCount : Option Nat
  propertyTypes : List (List Char × List Char)
  maxShDegree : Nat
  headerEndIndex : Nat
  vertexData : List Char
deriving Repr, DecidableEq

/-- Model of `readPlyHeader` on the raw file bytes. -/
def readPlyHeaderModel (file : List Char) : PlyInfo :=
  let hIdx := headerEndIndexOf file
  let st := headerState file
  { originalHeader := file.take hIdx
    vertexCount := st.vertexCount
    propertyTypes := st.propertyTypes
    maxShDegree := shDegree st.extraFNames.length 0
    headerEndIndex := hIdx
    vertexData := file.drop hIdx }

/-! ## Header rewriting (`createChunkHeader`, lines 139-153) -/

/-- `createChunkHeader` (lines 139-153): split the stored header on `'\n'`,
replace every line containing `element vertex` by `element vertex <n>`,
rejoin, and append a final newline when missing. -/
def createChunkHeader (originalHeader : List Char) (numVertices : Nat) : List Char :=
  let lines := splitOnNl originalHeader
  let modifiedLines := lines.map (fun line =>
    if hasSubstr line evBase then evLine numVertices else line)
  let header := joinNl modifiedLines
  if header.getLast? = some '\n' then header else header ++ ['\n']

/-! ## Chunk sizing and chunk emission (`split`, lines 179-223) -/

/-- The chunk-size computation of `split` (lines 189-191):
`Math.max(1, Math.floor(availableSize / (bytesPerVertex * (1 - EXPECTED_COMPRESSION_RATE) * BASE64_OVERHEAD)))`.
There is no guard on `availableSize ≤ 0`: the `max` clamps every outcome to
at least `1`. -/
def computeVerticesPerChunk (targetSizeBytes : ℤ) (headerSize bytesPerVertex : Nat) : ℤ :=
  let availableSize : ℚ := (targetSizeBytes : ℚ) - (headerSize : ℚ)
  max 1 ⌊availableSize / ((bytesPerVertex : ℚ) * (1 - EXPECTED_COMPRESSION_RATE) * BASE64_OVERHEAD)⌋

/-- `numChunks = Math.ceil(vertexCount / verticesPerChunk)` (line 195),
for a positive `verticesPerChunk`. -/
def numChunksOf (vertexCount verticesPerChunk : Nat) : Nat :=
  (vertexCount + verticesPerChunk - 1) / verticesPerChunk

/-- `numVertices = endIdx - startIdx` for chunk `i` (lines 209-211). -/
def chunkNumVertices (vertexCount verticesPerChunk i : Nat) : Nat :=
  min ((i + 1) * verticesPerChunk) vertexCount - i * verticesPerChunk

/-- The bytes written for chunk `i` by `writeChunkPly` (lines 155-161,
208-218): the rewritten header followed by
`vertexData.slice(startIdx * actualBytesPerVertex, endIdx * actualBytesPerVertex)`,
where `actualBytesPerVertex = vertexData.length / vertexCount` is a JS float
(line 194) and `Buffer.slice` truncates its arguments. -/
def chunkFileAt (originalHeader vertexData : List Char)
    (vertexCount verticesPerChunk i : Nat) : List Char :=
  let startIdx := i * verticesPerChunk
  let endIdx := min ((i + 1) * verticesPerChunk) vertexCount
  let numVertices := endIdx - startIdx
  let actualBytesPerVertex : ℚ := (vertexData.length : ℚ) / (vertexCount : ℚ)
  let startByte := (⌊(startIdx : ℚ) * actualBytesPerVertex⌋).toNat
  let endByte := (⌊(endIdx : ℚ) * actualBytesPerVertex⌋).toNat
  createChunkHeader originalHeader numVertices ++ sliceBytes vertexData startByte endByte

/-- The ordered list of chunk files emitted by the split loop
(lines 208-223). -/
def splitChunkFiles (originalHeader vertexData : List Char)
    (vertexCount verticesPerChunk : Nat) : List (List Char) :=
  (List.range (numChunksOf vertexCount verticesPerChunk)).map
    (chunkFileAt originalHeader vertexData vertexCount verticesPerChunk)

/-! ## Chunk-count extraction (`/element vertex (\d+)/`, lines 237, 308) -/

/-- Attempt of the regex `/element vertex (\d+)/` at the start of `l`:
the literal `element vertex ` followed by at least one digit; the capture is
the maximal digit run, passed to `parseInt`. -/
def evMatchAt (l : List Char) : Option Nat :=
  if evSp.isPrefixOf l then
    let ds := (l.drop evSp.length).takeWhile Char.isDigit
    if ds.isEmpty then none else some (parseDigits ds)
  else none

/-- `content.match(/element vertex (\d+)/)` followed by
`parseInt(match[1])`: the leftmost match wins. -/
def findVertexCount : List Char → Option Nat
  | [] => none
  | l@(_ :: t) =>
    match evMatchAt l with
    | some n => some n
    | none => findVertexCount t

/-! ## The split verification pass (lines 229-273) -/

/-- One iteration of the verification loop (lines 232-251) at an indexed
chunk content: a readable count is added to `verifiedVertices`, otherwise
the index is appended to `failedChunks`. -/
def verifyStep (acc : Nat × List Nat) (ic : Nat × List Char) : Nat × List Nat :=
  match findVertexCount ic.2 with
  | some n => (acc.1 + n, acc.2)
  | none => (acc.1, acc.2 ++ [ic.1])

/-- The whole verification loop, over the indexed chunk contents. -/
def verifyPass (chunks : List (List Char)) : Nat × List Nat :=
  chunks.enum.foldl verifyStep (0, [])

/-- `vertexDiff = Math.abs(this.vertexCount - verifiedVertices)` (line 266). -/
def vertexDiff (vertexCount verifiedVertices : Nat) : Nat :=
  ((vertexCount : ℤ) - (verifiedVertices : ℤ)).natAbs

/-- The fatal gate of the verification pass (lines 267-270): the run throws
exactly when `vertexDiff > 0`. -/
def splitAborts (chunks : List (List Char)) (vertexCount : Nat) : Bool :=
  0 < vertexDiff vertexCount (verifyPass chunks).1

/-! ## Merging (`readChunkPly` lines 287-296, `mergeChunks` lines 298-324) -/

/-- `readChunkPly` (lines 287-296): everything after the first
`end_header\n` (with the same `indexOf + 11` arithmetic as
`readPlyHeader`). -/
def readChunkData (file : List Char) : List Char :=
  file.drop (headerEndIndexOf file)

/-- `mergeChunks` (lines 298-324) over the contents of the listed chunk
files, in order: concatenates every chunk's stripped payload
unconditionally, adds each chunk's count only when the regex finds one, and
produces `createChunkHeader(totalVertices) ++ mergedVertexData` together
with the summed count.  `mergeStep` is one loop iteration (lines 302-312). -/
def mergeStep (acc : List Char × Nat) (file : List Char) : List Char × Nat :=
  (acc.1 ++ readChunkData file,
   match findVertexCount file with
   | some n => acc.2 + n
   | none => acc.2)

/-- The merge output file and its declared vertex count. -/
def mergeChunksModel (originalHeader : List Char) (chunks : List (List Char)) :
    List Char × Nat :=
  let acc := chunks.foldl mergeStep ([], 0)
  (createChunkHeader originalHeader acc.2 ++ acc.1, acc.2)

/-! ## Grouping (`createGroups`, lines 326-457) -/

/-- The grouping loop of `createGroups` (lines 366-370):
`for (let i = 0; i < files.length; i += effectiveGroupSize)` emitting
`Array.from({length: Math.min(eff, files.length - i)}, (_, idx) => i + idx)`.
The fuel argument only bounds the iteration count; `len` iterations always
suffice for a positive step (for step `0` and `0 < len` the JS loop never
terminates, a combination unreachable from `createGroups`' inputs). -/
def groupLoopAux : Nat → Nat → Nat → Nat → List (List Nat)
  | 0, _, _, _ => []
  | fuel + 1, eff, len, i =>
    if i < len then
      ((List.range (min eff (len - i))).map (fun idx => i + idx)) ::
        groupLoopAux fuel eff len (i + eff)
    else []

/-- The index groups formed by `createGroups(groupSize)` over `chunkCount`
chunk files (lines 350-351, 366-370):
`effectiveGroupSize = groupSize === -1 ? files.length : groupSize`. -/
def createGroupsIndices (chunkCount : Nat) (groupSize : Int) : List (List Nat) :=
  let eff : Nat := if groupSize = -1 then chunkCount else groupSize.toNat
  groupLoopAux chunkCount eff chunkCount 0

/-! ## Spec-side definitions for the chunk-sizing refinement claim -/

/-- The chunk-size formula exactly as the claim words it:
`max(1, floor(availableSize / (rawBytesPerVertex × 0.9 × 4/3)))`. -/
def claimVerticesPerChunk (targetSizeBytes : ℤ) (headerSize bytesPerVertex : Nat) : ℤ :=
  max 1 ⌊((targetSizeBytes : ℚ) - (headerSize : ℚ)) /
    ((bytesPerVertex : ℚ) * (9 / 10) * (4 / 3))⌋

/-- The amended chunk-size formula: the divisor the code actually uses is
`rawBytesPerVertex × (1 − 0.9) × 1.25`. -/
def amendedVerticesPerChunk (targetSizeBytes : ℤ) (headerSize bytesPerVertex : Nat) : ℤ :=
  max 1 ⌊((targetSizeBytes : ℚ) - (headerSize : ℚ)) /
    ((bytesPerVertex : ℚ) * (1 - 9 / 10) * (5 / 4))⌋

/-! ## C1: the chunk-sizing formula -/

/-- Claim C1 is false at its own worked scenario: for 32 bytes/vertex, a
120-byte header and a 566-byte budget the claimed formula
(divisor `32 × 0.9 × 4/3 = 38.4`) yields 11 vertices per chunk, but the code
divides by `32 × (1 − 0.9) × 1.25 = 4` and returns 111, giving 91 chunks
over 10,000 vertices rather than the claimed 910. -/
theorem c1_sizing_formula_counterexample :
    claimVerticesPerChunk 566 120 32 = 11 ∧
    computeVerticesPerChunk 566 120 32 = 111 ∧
    (11 : ℤ) ≠ 111 ∧ numChunksOf 10000 111 ≠ 910 := by
  refine ⟨?_, ?_, by decide, by decide⟩
  · norm_num [claimVerticesPerChunk]
  · norm_num [computeVerticesPerChunk, EXPECTED_COMPRESSION_RATE, BASE64_OVERHEAD]

/-- Claim C1, amended: the chunk-sizing computation returns
`max(1, floor((targetSizeBytes − headerSize) / (rawBytesPerVertex × (1 − 0.9) × 1.25)))`;
in particular for 32 bytes/vertex, a 120-byte header and
`targetSizeBytes = 566` it returns 111, giving 91 chunks over 10,000
vertices with 10 vertices in the last chunk. -/
theorem c1_sizing_formula_amended :
    (∀ (t : ℤ) (h b : Nat),
      computeVerticesPerChunk t h b = amendedVerticesPerChunk t h b) ∧
    computeVerticesPerChunk 566 120 32 = 111 ∧
    numChunksOf 10000 111 = 91 ∧
    chunkNumVertices 10000 111 90 = 10 := by
  refine ⟨fun t h b => rfl, ?_, by decide, by decide⟩
  norm_num [computeVerticesPerChunk, EXPECTED_COMPRESSION_RATE, BASE64_OVERHEAD]

/-! ## C5: behaviour when the budget cannot even hold the header -/

/-- Claim C5 is false: with a 120-byte header and a 100-byte budget
(`availableSize = −20 ≤ 0`) the computation does not fail with a
`SizeBudgetError` — no such check exists in lines 189-191 — it returns the
clamped vertex count 1. -/
theorem c5_no_size_budget_error_counterexample :
    computeVerticesPerChunk 100 120 32 = 1 := by
  norm_num [computeVerticesPerChunk, EXPECTED_COMPRESSION_RATE, BASE64_OVERHEAD]

/-- Claim C5, amended: the computation never fails; for every
`targetSizeBytes ≤ headerSize` it returns exactly 1 (the `max` clamp), and
for every budget it returns an integer ≥ 1. -/
theorem c5_budget_clamp_amended (t : ℤ) (h b : Nat) (hb : 0 < b) :
    (t ≤ h → computeVerticesPerChunk t h b = 1) ∧
    1 ≤ computeVerticesPerChunk t h b := by
  constructor
  · intro hle
    have hdiv : (0 : ℚ) < (b : ℚ) * (1 - 9 / 10) * (5 / 4) := by
      have : (0 : ℚ) < (b : ℚ) := by exact_mod_cast hb
      nlinarith
    have hnum : ((t : ℚ) - (h : ℚ)) ≤ 0 := by
      have : (t : ℚ) ≤ (h : ℚ) := by exact_mod_cast hle
      linarith
    have hq : ((t : ℚ) - (h : ℚ)) / ((b : ℚ) * (1 - 9 / 10) * (5 / 4)) ≤ 0 :=
      div_nonpos_of_nonpos_of_nonneg hnum (le_of_lt hdiv)
    have hfl : ⌊((t : ℚ) - (h : ℚ)) / ((b : ℚ) * (1 - 9 / 10) * (5 / 4))⌋ ≤ 0 := by
      exact Int.floor_nonpos hq
    simp only [computeVerticesPerChunk, EXPECTED_COMPRESSION_RATE, BASE64_OVERHEAD]
    omega
  · exact le_max_left 1 _

/-- Witness for `c5_budget_clamp_amended` at the concrete sub-budget input
(target 100, header 120, 32 bytes/vertex). -/
theorem c5_budget_clamp_amended_witness :
    ((100 : ℤ) ≤ (120 : Nat) → computeVerticesPerChunk 100 120 32 = 1) ∧
    1 ≤ computeVerticesPerChunk 100 120 32 :=
  c5_budget_clamp_amended 100 120 32 (by decide)

/-! ## C8: unknown property types -/

/-- Claim C8 asserts the intended behaviour (a fatal `UnknownPropertyType`
error, per the spec, which flags the code's fallback as a probable latent
bug); the code instead silently defaults: `double` is absent from the width
table yet `getTypeSize` returns the default width 4 (the `|| 4` on
line 63). -/
theorem c8_unknown_type_silent_default :
    typeSizes.lookup "double".toList = none ∧
    getTypeSize "double".toList = 4 := by
  exact ⟨by decide, by decide⟩

/-! ## C7: header parsing without terminator / vertex-count line -/

/-- Claim C7 asserts the intended behaviour (a fatal `HeaderParseError`);
the code never raises one.  On an input with no `end_header\n` the
unchecked `indexOf` returns `-1`, so `headerEndIndex` becomes `10` and the
first ten bytes are silently treated as the header; on an input with a
terminator but no vertex-count line, `vertexCount` silently keeps its
constructor value 0.  Both parses produce a structured result. -/
theorem c7_header_parse_never_fails :
    (readPlyHeaderModel "hello world splat data".toList).headerEndIndex = 10 ∧
    (readPlyHeaderModel "hello world splat data".toList).originalHeader =
      "hello worl".toList ∧
    (readPlyHeaderModel "ply\nformat binary\nend_header\nDATA".toList).vertexCount =
      some 0 := by
  exact ⟨by decide, by decide, by decide⟩

/-! ## C9: unresolved spherical-harmonics degree -/

set_option maxRecDepth 4000 in
/-- Claim C9 is false: a header with 3 `f_rest_`-prefixed properties (a
count matching none of 0/9/24/45) is parsed without surfacing anything —
`maxShDegree` silently keeps its previous value, 0 on a fresh instance. -/
theorem c9_unresolved_degree_counterexample :
    (headerState ("ply\nelement vertex 1\nproperty float x\nproperty float f_rest_0\nproperty float f_rest_1\nproperty float f_rest_2\nend_header\n").toList).extraFNames.length = 3 ∧
    (readPlyHeaderModel ("ply\nelement vertex 1\nproperty float x\nproperty float f_rest_0\nproperty float f_rest_1\nproperty float f_rest_2\nend_header\n").toList).maxShDegree = 0 := by
  exact ⟨by decide, by decide⟩

/-- Claim C9, amended: a prefix-count matching none of 0/9/24/45 leaves the
spherical-harmonics degree at its previous value (0 for a fresh parse) —
nothing is surfaced to the caller; every parse result's degree is exactly
`shDegree` of the prefix count. -/
theorem c9_unresolved_degree_amended (count prev : Nat)
    (h0 : count ≠ 0) (h9 : count ≠ 9) (h24 : count ≠ 24) (h45 : count ≠ 45) :
    shDegree count prev = prev ∧
    ∀ file : List Char,
      (readPlyHeaderModel file).maxShDegree =
        shDegree (headerState file).extraFNames.length 0 := by
  refine ⟨?_, fun file => rfl⟩
  simp only [shDegree, if_neg h0, if_neg h9, if_neg h24, if_neg h45]

/-- Witness for `c9_unresolved_degree_amended` at count 3. -/
theorem c9_unresolved_degree_amended_witness :
    shDegree 3 0 = 0 ∧
    ∀ file : List Char,
      (readPlyHeaderModel file).maxShDegree =
        shDegree (headerState file).extraFNames.length 0 :=
  c9_unresolved_degree_amended 3 0 (by decide) (by decide) (by decide) (by decide)

/-! ## C3: the split verification gate -/

/-- The failed-chunk list only ever grows along the verification loop. -/
theorem verifyStep_foldl_failed_sub (l : List (Nat × List Char))
    (acc : Nat × List Nat) (i : Nat) (hi : i ∈ acc.2) :
    i ∈ (l.foldl verifyStep acc).2 := by
  induction l generalizing acc with
  | nil => exact hi
  | cons x t ih =>
    refine ih (verifyStep acc x) ?_
    unfold verifyStep
    cases findVertexCount x.2 <;> simp [hi]

/-- An indexed chunk whose count is unreadable ends up in the failed list. -/
theorem verifyStep_foldl_failed_mem (l : List (Nat × List Char))
    (acc : Nat × List Nat) (i : Nat) (c : List Char)
    (hmem : (i, c) ∈ l) (hnone : findVertexCount c = none) :
    i ∈ (l.foldl verifyStep acc).2 := by
  induction l generalizing acc with
  | nil => cases hmem
  | cons x t ih =>
    rcases List.mem_cons.mp hmem with h | h
    · refine verifyStep_foldl_failed_sub t _ i ?_
      rw [show x = (i, c) from h.symm]
      unfold verifyStep
      simp [hnone]
    · exact ih _ h

/-- Claim C3: in the verification pass, a chunk whose declared vertex count
cannot be read is recorded in `failedChunks` (and recording alone never
aborts); the fatal throw on lines 267-270 fires exactly when the sum of all
readable chunk counts differs from the original vertex count, and the
reported delta is `|vertexCount − verifiedVertices|`. -/
theorem c3_verification_gate (chunks : List (List Char)) (vertexCount : Nat) :
    (splitAborts chunks vertexCount = true ↔ (verifyPass chunks).1 ≠ vertexCount) ∧
    (∀ i c, (i, c) ∈ chunks.enum → findVertexCount c = none →
      i ∈ (verifyPass chunks).2) ∧
    vertexDiff vertexCount (verifyPass chunks).1 =
      ((vertexCount : ℤ) - ((verifyPass chunks).1 : ℤ)).natAbs := by
  refine ⟨?_, ?_, rfl⟩
  · simp only [splitAborts, vertexDiff, decide_eq_true_eq]
    omega
  · intro i c hmem hnone
    exact verifyStep_foldl_failed_mem chunks.enum ⟨0, []⟩ i c hmem hnone

/-- Witness for `c3_verification_gate` at two concrete chunk files, one of
them count-less: the bad chunk is recorded, and the run aborts exactly on a
sum mismatch. -/
theorem c3_verification_gate_witness :
    (splitAborts ["element vertex 5\n".toList, "garbage".toList] 5 = true ↔
      (verifyPass ["element vertex 5\n".toList, "garbage".toList]).1 ≠ 5) ∧
    (∀ i c, (i, c) ∈ (["element vertex 5\n".toList, "garbage".toList] : List (List Char)).enum →
      findVertexCount c = none →
      i ∈ (verifyPass ["element vertex 5\n".toList, "garbage".toList]).2) ∧
    vertexDiff 5 (verifyPass ["element vertex 5\n".toList, "garbage".toList]).1 =
      ((5 : ℤ) - ((verifyPass ["element vertex 5\n".toList, "garbage".toList]).1 : ℤ)).natAbs :=
  c3_verification_gate ["element vertex 5\n".toList, "garbage".toList] 5

/-! ## C4: the grouping step -/

/-- `createGroupsIndices` at `groupSize = -1`. -/
theorem createGroupsIndices_neg_one (chunkCount : Nat) :
    createGroupsIndices chunkCount (-1) =
      groupLoopAux chunkCount chunkCount chunkCount 0 := rfl

/-- `createGroupsIndices` at an explicit group size. -/
theorem createGroupsIndices_of_ne (chunkCount : Nat) (groupSize : Int)
    (h : groupSize ≠ -1) :
    createGroupsIndices chunkCount groupSize =
      groupLoopAux chunkCount groupSize.toNat chunkCount 0 := by
  simp [createGroupsIndices, h]

/-- Past the end of the index range the grouping loop emits nothing. -/
theorem groupLoopAux_of_le (fuel eff len i : Nat) (h : len ≤ i) :
    groupLoopAux fuel eff len i = [] := by
  cases fuel with
  | zero => rfl
  | succ f => simp [groupLoopAux, Nat.not_lt.mpr h]

/-- With a positive step and enough fuel, the emitted groups concatenate to
the contiguous ascending index range `[i, len)`. -/
theorem groupLoopAux_flatten (fuel : Nat) : ∀ (eff len i : Nat), 0 < eff →
    len - i ≤ fuel * eff →
    (groupLoopAux fuel eff len i).flatten = List.range' i (len - i) := by
  induction fuel with
  | zero =>
    intro eff len i _ hfuel
    simp only [Nat.zero_mul, Nat.le_zero] at hfuel
    simp [groupLoopAux, hfuel]
  | succ f ih =>
    intro eff len i heff hfuel
    by_cases hi : i < len
    · simp only [groupLoopAux, if_pos hi, List.flatten_cons]
      have hmap : (List.range (min eff (len - i))).map (fun idx => i + idx) =
          List.range' i (min eff (len - i)) := by
        rw [List.range'_eq_map_range]
      rw [hmap, ih eff len (i + eff) heff (by rw [Nat.succ_mul] at hfuel; omega)]
      by_cases hcase : eff ≤ len - i
      · rw [min_eq_left hcase]
        have happ := List.range'_append i eff (len - (i + eff)) 1
        simp only [Nat.one_mul] at happ
        rw [happ]
        congr 1
        omega
      · rw [min_eq_right (le_of_not_le hcase)]
        rw [show len - (i + eff) = 0 by omega]
        simp
    · rw [groupLoopAux_of_le (f + 1) eff len i (by omega)]
      simp [Nat.sub_eq_zero_of_le (by omega : len ≤ i)]

/-- Every emitted group is a nonempty contiguous ascending range bounded by
the effective group size. -/
theorem groupLoopAux_mem (fuel : Nat) : ∀ (eff len i : Nat) (G : List Nat),
    0 < eff → G ∈ groupLoopAux fuel eff len i →
    (∃ s, G = List.range' s G.length) ∧ 1 ≤ G.length ∧ G.length ≤ eff := by
  induction fuel with
  | zero => intro eff len i G _ hG; cases hG
  | succ f ih =>
    intro eff len i G heff hG
    by_cases hi : i < len
    · simp only [groupLoopAux, if_pos hi, List.mem_cons] at hG
      rcases hG with rfl | hG
      · refine ⟨⟨i, ?_⟩, ?_, ?_⟩
        · rw [List.range'_eq_map_range]
          simp
        · simp only [List.length_map, List.length_range]
          omega
        · simp only [List.length_map, List.length_range]
          omega
      · exact ih eff len (i + eff) G heff hG
    · rw [groupLoopAux_of_le (f + 1) eff len i (by omega)] at hG
      cases hG

/-- Every group except possibly the last has exactly the effective size. -/
theorem groupLoopAux_nonlast_len (fuel : Nat) : ∀ (eff len i j : Nat), 0 < eff →
    j + 1 < (groupLoopAux fuel eff len i).length →
    ((groupLoopAux fuel eff len i).getD j []).length = eff := by
  induction fuel with
  | zero => intro eff len i j _ hj; simp [groupLoopAux] at hj
  | succ f ih =>
    intro eff len i j heff hj
    by_cases hi : i < len
    · simp only [groupLoopAux, if_pos hi] at hj ⊢
      cases j with
      | zero =>
        have hrest : groupLoopAux f eff len (i + eff) ≠ [] := by
          intro hempty
          rw [hempty] at hj
          simp at hj
        have hlt : i + eff < len := by
          by_contra hge
          exact hrest (groupLoopAux_of_le f eff len (i + eff) (by omega))
        simp only [List.getD_cons_zero, List.length_map, List.length_range]
        omega
      | succ k =>
        simp only [List.getD_cons_succ]
        refine ih eff len (i + eff) k heff ?_
        simpa using hj
    · rw [groupLoopAux_of_le (f + 1) eff len i (by omega)] at hj
      simp at hj

/-- A group size equal to the whole index range yields the single full
group. -/
theorem groupLoopAux_all (fuel len : Nat) (hf : 1 ≤ fuel) (hl : 1 ≤ len) :
    groupLoopAux fuel len len 0 = [List.range len] := by
  cases fuel with
  | zero => omega
  | succ f =>
    simp only [groupLoopAux, if_pos hl]
    rw [groupLoopAux_of_le f len len (0 + len) (by omega)]
    simp
    omega

/-- Claim C4 is false at the corner `chunkCount = 0, groupSize = -1`: the
loop body never runs, so no group at all is produced — not "a single group
containing every chunk". -/
theorem c4_grouping_counterexample :
    createGroupsIndices 0 (-1) = [] ∧ (createGroupsIndices 0 (-1)).length ≠ 1 := by
  exact ⟨rfl, by decide⟩

/-- Claim C4, amended: for every `chunkCount` and every `groupSize` that is
−1 or ≥ 1, the groups partition `[0, chunkCount)` in ascending order
(their concatenation is exactly `range chunkCount`); `groupSize = −1`
yields a single group containing every chunk whenever `chunkCount ≥ 1`
(and no group at all when `chunkCount = 0`); every group is a nonempty
contiguous ascending range, of length exactly `groupSize` except possibly
the last, which may be shorter. -/
theorem c4_grouping_amended (chunkCount : Nat) (groupSize : Int)
    (hgs : groupSize = -1 ∨ 1 ≤ groupSize) :
    (createGroupsIndices chunkCount groupSize).flatten = List.range chunkCount ∧
    (groupSize = -1 → 1 ≤ chunkCount →
      createGroupsIndices chunkCount groupSize = [List.range chunkCount]) ∧
    (∀ G ∈ createGroupsIndices chunkCount groupSize,
      (∃ s, G = List.range' s G.length) ∧ 1 ≤ G.length) ∧
    (1 ≤ groupSize →
      (∀ G ∈ createGroupsIndices chunkCount groupSize, G.length ≤ groupSize.toNat) ∧
      (∀ j, j + 1 < (createGroupsIndices chunkCount groupSize).length →
        ((createGroupsIndices chunkCount groupSize).getD j []).length = groupSize.toNat)) := by
  have hmul : ∀ eff : Nat, 0 < eff → chunkCount - 0 ≤ chunkCount * eff := by
    intro eff h
    have := Nat.mul_le_mul_left chunkCount h
    omega
  refine ⟨?_, ?_, ?_, ?_⟩
  · rcases hgs with rfl | hpos
    · rw [createGroupsIndices_neg_one]
      cases Nat.eq_zero_or_pos chunkCount with
      | inl h0 => subst h0; rfl
      | inr hp =>
        rw [groupLoopAux_flatten chunkCount chunkCount chunkCount 0 hp (hmul _ hp)]
        simp [List.range_eq_range']
    · rw [createGroupsIndices_of_ne chunkCount groupSize (by omega)]
      have hp : 0 < groupSize.toNat := by omega
      rw [groupLoopAux_flatten chunkCount groupSize.toNat chunkCount 0 hp (hmul _ hp)]
      simp [List.range_eq_range']
  · rintro rfl hcc
    rw [createGroupsIndices_neg_one]
    exact groupLoopAux_all chunkCount chunkCount hcc hcc
  · intro G hG
    rcases hgs with rfl | hpos
    · rw [createGroupsIndices_neg_one] at hG
      cases Nat.eq_zero_or_pos chunkCount with
      | inl h0 =>
        subst h0
        cases hG
      | inr hp =>
        exact ⟨(groupLoopAux_mem _ _ _ _ G hp hG).1,
          (groupLoopAux_mem _ _ _ _ G hp hG).2.1⟩
    · rw [createGroupsIndices_of_ne chunkCount groupSize (by omega)] at hG
      have hp : 0 < groupSize.toNat := by omega
      exact ⟨(groupLoopAux_mem _ _ _ _ G hp hG).1,
        (groupLoopAux_mem _ _ _ _ G hp hG).2.1⟩
  · intro hpos
    have hne : groupSize ≠ -1 := by omega
    have hp : 0 < groupSize.toNat := by omega
    constructor
    · intro G hG
      rw [createGroupsIndices_of_ne chunkCount groupSize hne] at hG
      exact (groupLoopAux_mem _ _ _ _ G hp hG).2.2
    · intro j hj
      rw [createGroupsIndices_of_ne chunkCount groupSize hne] at hj ⊢
      exact groupLoopAux_nonlast_len _ _ _ _ j hp hj

/-- Witness for `c4_grouping_amended` at 7 chunks with group size 3. -/
theorem c4_grouping_amended_witness :
    (createGroupsIndices 7 3).flatten = List.range 7 ∧
    ((3 : Int) = -1 → 1 ≤ 7 →
      createGroupsIndices 7 3 = [List.range 7]) ∧
    (∀ G ∈ createGroupsIndices 7 3,
      (∃ s, G = List.range' s G.length) ∧ 1 ≤ G.length) ∧
    ((1 : Int) ≤ 3 →
      (∀ G ∈ createGroupsIndices 7 3, G.length ≤ (3 : Int).toNat) ∧
      (∀ j, j + 1 < (createGroupsIndices 7 3).length →
        ((createGroupsIndices 7 3).getD j []).length = (3 : Int).toNat)) :=
  c4_grouping_amended 7 3 (Or.inr (by decide))

/-! ## C10: merging chunks whose header lacks a vertex-count line -/

/-- Characterization of the merge loop: payloads are concatenated
unconditionally, counts contribute `0` when unreadable. -/
theorem mergeStep_foldl (chunks : List (List Char)) :
    ∀ acc : List Char × Nat,
    chunks.foldl mergeStep acc =
      (acc.1 ++ (chunks.map readChunkData).flatten,
       acc.2 + (chunks.map (fun c => (findVertexCount c).getD 0)).sum) := by
  induction chunks with
  | nil => intro acc; simp
  | cons x t ih =>
    intro acc
    rw [List.foldl_cons, ih]
    unfold mergeStep
    cases h : findVertexCount x
    · simp [h, List.append_assoc]
    · simp [h, List.append_assoc]
      omega

/-- Claim C10: the merge concatenates the stripped payload of every listed
chunk even when that chunk's content has no `element vertex` match; such a
chunk contributes 0 to the declared vertex count, and the merge raises no
error.  The concrete instance merges a single chunk whose header lacks the
vertex-count line: its two payload bytes survive while the merged file
declares 0 vertices. -/
theorem c10_merge_countless_chunks (originalHeader : List Char)
    (chunks : List (List Char)) :
    mergeChunksModel originalHeader chunks =
      (createChunkHeader originalHeader
          ((chunks.map (fun c => (findVertexCount c).getD 0)).sum) ++
        (chunks.map readChunkData).flatten,
       (chunks.map (fun c => (findVertexCount c).getD 0)).sum) ∧
    mergeChunksModel "ply\nelement vertex 2\nend_header\n".toList
        ["comment broken\nend_header\nAB".toList] =
      ("ply\nelement vertex 0\nend_header\nAB".toList, 0) := by
  constructor
  · simp only [mergeChunksModel, mergeStep_foldl chunks ([], 0)]
    simp
  · decide

/-! ## Decimal numeral lemmas -/

/-- Basic facts about the ten digit characters. -/
theorem digitChar_spec (d : Nat) (hd : d < 10) :
    (digitChar d).toNat - 48 = d ∧ (digitChar d).isDigit = true := by
  interval_cases d <;> exact ⟨by decide, by decide⟩

/-- The fuel-driven emitter agrees with the reference digits function when
the fuel covers the magnitude. -/
theorem natDigitsAux_eq_list (fuel : Nat) : ∀ (n : Nat) (acc : List Char),
    0 < fuel → n < 10 ^ fuel →
    natDigitsAux fuel n acc = natDigitsList n ++ acc := by
  induction fuel with
  | zero => intro n acc h; omega
  | succ f ih =>
    intro n acc _ hlt
    by_cases hn : n < 10
    · simp only [natDigitsAux, if_pos hn]
      rw [natDigitsList, dif_pos hn, Nat.mod_eq_of_lt hn]
      rfl
    · simp only [natDigitsAux, if_neg hn]
      have hf : 0 < f := by
        by_contra h0
        have : f = 0 := by omega
        subst this
        simp at hlt
        omega
      have hdiv : n / 10 < 10 ^ f := by
        rw [Nat.div_lt_iff_lt_mul (by omega)]
        calc n < 10 ^ (f + 1) := hlt
        _ = 10 ^ f * 10 := by ring
      rw [ih (n / 10) (digitChar (n % 10) :: acc) hf hdiv]
      conv_rhs => rw [natDigitsList]
      rw [dif_neg hn]
      simp

/-- `natDigits` computes the reference digits. -/
theorem natDigits_eq_list (n : Nat) : natDigits n = natDigitsList n := by
  have h : n < 10 ^ (n + 1) := by
    calc n < 10 ^ n := Nat.lt_pow_self (by omega) n
    _ ≤ 10 ^ (n + 1) := Nat.pow_le_pow_right (by omega) (by omega)
  rw [natDigits, natDigitsAux_eq_list (n + 1) n [] (by omega) h, List.append_nil]

/-- Every character of a decimal numeral is a digit. -/
theorem natDigitsList_all_digit (n : Nat) :
    ∀ c ∈ natDigitsList n, c.isDigit = true := by
  induction n using Nat.strong_induction_on with
  | _ n ih =>
    intro c hc
    by_cases hn : n < 10
    · rw [natDigitsList, dif_pos hn] at hc
      simp only [List.mem_singleton] at hc
      subst hc
      exact (digitChar_spec n hn).2
    · rw [natDigitsList, dif_neg hn] at hc
      rcases List.mem_append.mp hc with h | h
      · exact ih (n / 10) (Nat.div_lt_self (by omega) (by omega)) c h
      · simp only [List.mem_singleton] at h
        subst h
        exact (digitChar_spec (n % 10) (Nat.mod_lt n (by omega))).2

/-- Decimal numerals are never empty. -/
theorem natDigitsList_ne_nil (n : Nat) : natDigitsList n ≠ [] := by
  by_cases hn : n < 10
  · rw [natDigitsList, dif_pos hn]
    simp
  · rw [natDigitsList, dif_neg hn]
    simp

/-- `parseInt` of a decimal numeral restores the number. -/
theorem parseDigits_natDigitsList (n : Nat) :
    parseDigits (natDigitsList n) = n := by
  induction n using Nat.strong_induction_on with
  | _ n ih =>
    by_cases hn : n < 10
    · rw [natDigitsList, dif_pos hn]
      simp only [parseDigits, List.foldl_cons, List.foldl_nil]
      rw [(digitChar_spec n hn).1]
      omega
    · rw [natDigitsList, dif_neg hn]
      have hrec := ih (n / 10) (Nat.div_lt_self (by omega) (by omega))
      simp only [parseDigits, List.foldl_append, List.foldl_cons, List.foldl_nil]
      simp only [parseDigits] at hrec
      rw [hrec, (digitChar_spec (n % 10) (Nat.mod_lt n (by omega))).1]
      omega

/-- Digits are not newlines. -/
theorem not_nl_of_isDigit (c : Char) (h : c.isDigit = true) : c ≠ '\n' := by
  intro hc
  subst hc
  simp [Char.isDigit] at h

/-- No character of `natDigits n` is a newline. -/
theorem natDigits_no_nl (n : Nat) : '\n' ∉ natDigits n := by
  rw [natDigits_eq_list]
  intro hmem
  exact not_nl_of_isDigit '\n' (natDigitsList_all_digit n '\n' hmem) rfl

/-- The vertex-count line contains no newline. -/
theorem evLine_no_nl (n : Nat) : '\n' ∉ evLine n := by
  intro hmem
  rcases List.mem_append.mp hmem with h | h
  · revert h
    decide
  · exact natDigits_no_nl n h

/-! ## First-occurrence characterization -/

/-- A prefix found strictly inside the left part of an append. -/
theorem prefix_of_append_of_le (pat a b : List Char)
    (h : pat <+: a ++ b) (hlen : pat.length ≤ a.length) : pat <+: a := by
  have htake := List.prefix_iff_eq_take.mp h
  rw [List.take_append_eq_append_take, Nat.sub_eq_zero_of_le hlen,
    List.take_zero, List.append_nil] at htake
  exact htake ▸ List.take_prefix pat.length a

/-- `firstOcc` finds an actual occurrence. -/
theorem firstOcc_some_occurs (l pat : List Char) (p : Nat)
    (h : firstOcc l pat = some p) : pat <+: l.drop p := by
  induction l generalizing p with
  | nil =>
    unfold firstOcc at h
    by_cases hp : pat.isPrefixOf ([] : List Char)
    · rw [if_pos hp] at h
      cases h
      simpa using List.isPrefixOf_iff_prefix.mp hp
    · rw [if_neg hp] at h
      cases h
  | cons c t ih =>
    unfold firstOcc at h
    by_cases hp : pat.isPrefixOf (c :: t)
    · rw [if_pos hp] at h
      cases h
      simpa using List.isPrefixOf_iff_prefix.mp hp
    · rw [if_neg hp] at h
      rcases Option.map_eq_some'.mp h with ⟨q, hq, rfl⟩
      simpa using ih q hq

/-- `firstOcc` finds the leftmost occurrence. -/
theorem firstOcc_some_least (l pat : List Char) (p : Nat)
    (h : firstOcc l pat = some p) : ∀ q < p, ¬ pat <+: l.drop q := by
  induction l generalizing p with
  | nil =>
    unfold firstOcc at h
    by_cases hp : pat.isPrefixOf ([] : List Char)
    · rw [if_pos hp] at h
      cases h
      omega
    · rw [if_neg hp] at h
      cases h
  | cons c t ih =>
    unfold firstOcc at h
    by_cases hp : pat.isPrefixOf (c :: t)
    · rw [if_pos hp] at h
      cases h
      omega
    · rw [if_neg hp] at h
      rcases Option.map_eq_some'.mp h with ⟨r, hr, rfl⟩
      intro q hq
      cases q with
      | zero =>
        simpa using fun hpre => hp (List.isPrefixOf_iff_prefix.mpr hpre)
      | succ q' =>
        simpa using ih r hr q' (by omega)

/-- Conversely, the leftmost occurrence determines `firstOcc`. -/
theorem firstOcc_eq_some_of (l pat : List Char) (p : Nat)
    (hocc : pat <+: l.drop p) (hleast : ∀ q < p, ¬ pat <+: l.drop q) :
    firstOcc l pat = some p := by
  induction l generalizing p with
  | nil =>
    cases p with
    | zero =>
      simp only [List.drop_nil] at hocc
      unfold firstOcc
      rw [if_pos (List.isPrefixOf_iff_prefix.mpr hocc)]
    | succ q =>
      exfalso
      refine hleast 0 (by omega) ?_
      simpa using hocc
  | cons c t ih =>
    cases p with
    | zero =>
      simp only [List.drop_zero] at hocc
      unfold firstOcc
      rw [if_pos (List.isPrefixOf_iff_prefix.mpr hocc)]
    | succ q =>
      have hnot : ¬ pat.isPrefixOf (c :: t) := by
        intro hpre
        exact hleast 0 (by omega)
          (by simpa using List.isPrefixOf_iff_prefix.mp hpre)
      unfold firstOcc
      rw [if_neg hnot]
      have := ih q (by simpa using hocc)
        (fun r hr hpre => hleast (r + 1) (by omega) (by simpa using hpre))
      rw [this]
      rfl

/-- An occurrence wholly inside the left part survives appending. -/
theorem firstOcc_append_of_some (a b pat : List Char) (p : Nat)
    (h : firstOcc a pat = some p) (hfit : p + pat.length ≤ a.length) :
    firstOcc (a ++ b) pat = some p := by
  refine firstOcc_eq_some_of (a ++ b) pat p ?_ ?_
  · have hocc := firstOcc_some_occurs a pat p h
    rcases hocc with ⟨t, ht⟩
    refine ⟨t ++ b, ?_⟩
    rw [List.drop_append_of_le_length (by omega), ← List.append_assoc, ht]
  · intro q hq hpre
    have hfit2 : pat.length ≤ (a.drop q).length := by
      rw [List.length_drop]
      omega
    rw [List.drop_append_of_le_length (by omega)] at hpre
    exact firstOcc_some_least a pat p h q hq
      (prefix_of_append_of_le pat (a.drop q) b hpre hfit2)

/-- A pattern occurring at position 0 makes `hasSubstr` true. -/
theorem hasSubstr_of_starts (l pat : List Char) (h : pat <+: l) :
    hasSubstr l pat = true := by
  unfold hasSubstr
  cases l with
  | nil =>
    unfold firstOcc
    rw [if_pos (List.isPrefixOf_iff_prefix.mpr h)]
    rfl
  | cons c t =>
    unfold firstOcc
    rw [if_pos (List.isPrefixOf_iff_prefix.mpr h)]
    rfl

/-- `hasSubstr` is monotone under extending the text on the left. -/
theorem hasSubstr_cons_of (c : Char) (l pat : List Char)
    (h : hasSubstr l pat = true) : hasSubstr (c :: l) pat = true := by
  unfold hasSubstr at h ⊢
  unfold firstOcc
  by_cases hp : pat.isPrefixOf (c :: l)
  · rw [if_pos hp]; rfl
  · rw [if_neg hp]
    rcases Option.isSome_iff_exists.mp h with ⟨p, hp2⟩
    rw [hp2]
    rfl

/-- A false `hasSubstr` rules out occurrences at every position. -/
theorem not_prefix_drop_of_hasSubstr_false (l pat : List Char)
    (h : hasSubstr l pat = false) : ∀ q, ¬ pat <+: l.drop q := by
  intro q hpre
  induction l generalizing q with
  | nil =>
    simp only [List.drop_nil] at hpre
    rw [show pat = [] from List.prefix_nil.mp hpre] at h
    unfold hasSubstr firstOcc at h
    simp at h
  | cons c t ih =>
    cases q with
    | zero =>
      simp only [List.drop_zero] at hpre
      rw [hasSubstr_of_starts (c :: t) pat hpre] at h
      cases h
    | succ q' =>
      refine ih ?_ q' (by simpa using hpre)
      unfold hasSubstr firstOcc at h
      by_cases hp : pat.isPrefixOf (c :: t)
      · rw [if_pos hp] at h
        cases h
      · rw [if_neg hp] at h
        unfold hasSubstr
        cases hfo : firstOcc t pat with
        | none => rfl
        | some r => rw [hfo] at h; simp at h

/-! ## Splitting and joining lines -/

/-- `split` never produces an empty list of fields. -/
theorem splitOnChar_ne_nil (sep : Char) (l : List Char) :
    splitOnChar sep l ≠ [] := by
  cases l with
  | nil => simp [splitOnChar]
  | cons c t =>
    unfold splitOnChar
    by_cases hc : c = sep
    · rw [if_pos hc]
      simp
    · rw [if_neg hc]
      cases splitOnChar sep t <;> simp

/-- `joinChar` over at least two fields. -/
theorem joinChar_cons_cons (sep : Char) (l : List Char) (L : List (List Char))
    (hL : L ≠ []) : joinChar sep (l :: L) = l ++ sep :: joinChar sep L := by
  cases L with
  | nil => cases hL rfl
  | cons h r => rfl

/-- `join(sep)` is a left inverse of `split(sep)`. -/
theorem joinChar_splitOnChar (sep : Char) (l : List Char) :
    joinChar sep (splitOnChar sep l) = l := by
  induction l with
  | nil => rfl
  | cons c t ih =>
    unfold splitOnChar
    by_cases hc : c = sep
    · rw [if_pos hc]
      rw [joinChar_cons_cons sep [] (splitOnChar sep t) (splitOnChar_ne_nil sep t)]
      rw [ih, hc]
      rfl
    · rw [if_neg hc]
      cases heq : splitOnChar sep t with
      | nil => exact absurd heq (splitOnChar_ne_nil sep t)
      | cons h r =>
        rw [heq] at ih
        cases r with
        | nil =>
          simp only [joinChar] at ih ⊢
          rw [ih]
        | cons r0 rt =>
          simp only [joinChar] at ih ⊢
          rw [List.cons_append, ih]

/-- No field produced by `split(sep)` contains the separator. -/
theorem splitOnChar_no_sep (sep : Char) (l : List Char) :
    ∀ p ∈ splitOnChar sep l, sep ∉ p := by
  induction l with
  | nil =>
    intro p hp
    simp [splitOnChar] at hp
    simp [hp]
  | cons c t ih =>
    intro p hp
    unfold splitOnChar at hp
    by_cases hc : c = sep
    · rw [if_pos hc] at hp
      rcases List.mem_cons.mp hp with rfl | hp2
      · simp
      · exact ih p hp2
    · rw [if_neg hc] at hp
      cases heq : splitOnChar sep t with
      | nil => exact absurd heq (splitOnChar_ne_nil sep t)
      | cons h r =>
        rw [heq] at hp
        rcases List.mem_cons.mp hp with rfl | hp2
        · intro hmem
          rcases List.mem_cons.mp hmem with rfl | hmem2
          · exact hc rfl
          · exact ih h (heq ▸ List.mem_cons_self h r) hmem2
        · exact ih p (heq ▸ List.mem_cons.mpr (Or.inr hp2))

/-- A separator-free text splits into a single field. -/
theorem splitOnChar_of_not_mem (sep : Char) (l : List Char) (h : sep ∉ l) :
    splitOnChar sep l = [l] := by
  induction l with
  | nil => rfl
  | cons c t ih =>
    have hc : c ≠ sep := fun hcs => h (hcs ▸ List.mem_cons_self c t)
    have ht : sep ∉ t := fun hmem => h (List.mem_cons.mpr (Or.inr hmem))
    unfold splitOnChar
    rw [if_neg hc, ih ht]

/-- Splitting at the first separator after a separator-free field. -/
theorem splitOnChar_append_sep (sep : Char) (l rest : List Char) (h : sep ∉ l) :
    splitOnChar sep (l ++ sep :: rest) = l :: splitOnChar sep rest := by
  induction l with
  | nil =>
    simp only [List.nil_append, splitOnChar]
    simp
  | cons c t ih =>
    have hc : c ≠ sep := fun hcs => h (hcs ▸ List.mem_cons_self c t)
    have ht : sep ∉ t := fun hmem => h (List.mem_cons.mpr (Or.inr hmem))
    rw [List.cons_append]
    simp only [splitOnChar]
    rw [if_neg hc, ih ht]

/-- `split(sep)` is a left inverse of `join(sep)` on separator-free
fields. -/
theorem splitOnChar_joinChar (sep : Char) (L : List (List Char))
    (hne : L ≠ []) (hfree : ∀ l ∈ L, sep ∉ l) :
    splitOnChar sep (joinChar sep L) = L := by
  induction L with
  | nil => cases hne rfl
  | cons l L' ih =>
    cases L' with
    | nil =>
      simp only [joinChar]
      exact splitOnChar_of_not_mem sep l (hfree l (List.mem_cons_self l []))
    | cons h r =>
      rw [joinChar_cons_cons sep l (h :: r) (by simp)]
      rw [splitOnChar_append_sep sep l _ (hfree l (List.mem_cons_self l _))]
      rw [ih (by simp) (fun p hp => hfree p (List.mem_cons.mpr (Or.inr hp)))]

/-- A joined line list ending in an empty line ends with a newline. -/
theorem joinNl_append_nil_getLast (M : List (List Char)) (hM : M ≠ []) :
    (joinNl (M ++ [[]])).getLast? = some '\n' := by
  induction M with
  | nil => cases hM rfl
  | cons m M' ih =>
    cases M' with
    | nil =>
      show (joinChar '\n' [m, []]).getLast? = some '\n'
      simp only [joinChar]
      rw [show m ++ '\n' :: [] = m ++ ['\n'] from rfl]
      exact List.getLast?_concat m
    | cons m2 M'' =>
      show (joinChar '\n' (m :: ((m2 :: M'') ++ [[]]))).getLast? = some '\n'
      rw [joinChar_cons_cons '\n' m _ (by simp)]
      have happ : (m ++ '\n' :: joinChar '\n' ((m2 :: M'') ++ [[]])).getLast? =
          ('\n' :: joinChar '\n' ((m2 :: M'') ++ [[]])).getLast? :=
        List.getLast?_append_of_ne_nil _ (by simp)
      rw [happ]
      cases hX : joinChar '\n' ((m2 :: M'') ++ [[]]) with
      | nil => rfl
      | cons x xs =>
        rw [List.getLast?_cons_cons]
        rw [← hX]
        exact ih (by simp)

/-! ## Occurrences across line boundaries -/

/-- Unfolding equation of `firstOcc` at a cons cell. -/
theorem firstOcc_cons (c : Char) (t pat : List Char) :
    firstOcc (c :: t) pat =
      if pat.isPrefixOf (c :: t) then some 0
      else (firstOcc t pat).map (· + 1) := rfl

/-- Unfolding equation of `findVertexCount` at a cons cell. -/
theorem findVertexCount_cons (c : Char) (t : List Char) :
    findVertexCount (c :: t) =
      match evMatchAt (c :: t) with
      | some n => some n
      | none => findVertexCount t := rfl

/-- A newline-free pattern prefixing a line-plus-separator text prefixes the
line itself. -/
theorem prefix_line_of_no_nl (pat l X : List Char)
    (_hpat : pat ≠ []) (hnl : '\n' ∉ pat)
    (h : pat <+: (l ++ '\n' :: X)) : pat <+: l := by
  by_cases hlen : pat.length ≤ l.length
  · exact prefix_of_append_of_le pat l ('\n' :: X) h hlen
  · exfalso
    have hlp : l <+: pat := by
      refine List.prefix_of_prefix_length_le (List.prefix_append l ('\n' :: X)) h ?_
      omega
    rcases hlp with ⟨d, hd⟩
    rcases h with ⟨t, ht⟩
    rw [← hd, List.append_assoc] at ht
    have hdt := List.append_cancel_left ht
    cases d with
    | nil =>
      rw [← hd] at hlen
      simp at hlen
    | cons d0 d' =>
      have hd0 : d0 = '\n' := by
        have h2 : d0 = '\n' ∧ d' ++ t = X := by simpa using hdt
        exact h2.1
      refine hnl ?_
      rw [← hd, ← hd0]
      exact List.mem_append.mpr (Or.inr (List.mem_cons_self d0 d'))

/-- A pattern of the shape `q ++ '\n'` prefixes a line-plus-separator text
only when `q` is the whole line. -/
theorem pat_nl_prefix_line (q l X : List Char)
    (hq : '\n' ∉ q) (hl : '\n' ∉ l)
    (h : (q ++ ['\n']) <+: (l ++ '\n' :: X)) : q = l := by
  rcases Nat.lt_trichotomy q.length l.length with hlt | heq | hgt
  · exfalso
    have hp : (q ++ ['\n']) <+: l := by
      refine prefix_of_append_of_le (q ++ ['\n']) l ('\n' :: X) h ?_
      simp only [List.length_append, List.length_singleton]
      omega
    exact hl (hp.subset (List.mem_append.mpr (Or.inr (List.mem_singleton.mpr rfl))))
  · have hqpre : q <+: l ++ '\n' :: X :=
      List.IsPrefix.trans (List.prefix_append q ['\n']) h
    have : q <+: l := prefix_of_append_of_le q l ('\n' :: X) hqpre (by omega)
    exact List.IsPrefix.eq_of_length this heq
  · exfalso
    have hq2 : q <+: l ++ '\n' :: X :=
      List.IsPrefix.trans (List.prefix_append q ['\n']) h
    have hlq : l <+: q :=
      List.prefix_of_prefix_length_le (List.prefix_append l ('\n' :: X)) hq2 (by omega)
    rcases hlq with ⟨d, hd⟩
    have hd_ne : d ≠ [] := by
      intro hnil
      rw [hnil, List.append_nil] at hd
      rw [hd] at hgt
      omega
    have h2 : (d ++ ['\n']) <+: ('\n' :: X) := by
      have h3 : l ++ (d ++ ['\n']) <+: l ++ '\n' :: X := by
        rw [← List.append_assoc, hd]
        exact h
      exact (List.prefix_append_right_inj l).mp h3
    cases d with
    | nil => exact hd_ne rfl
    | cons d0 d' =>
      have hd0 : d0 = '\n' := by
        rcases h2 with ⟨t2, ht2⟩
        simp only [List.cons_append] at ht2
        exact ((List.cons_eq_cons.mp ht2.symm).1).symm
      refine hq ?_
      rw [← hd]
      exact List.mem_append.mpr (Or.inr (hd0 ▸ List.mem_cons_self d0 d'))

/-- Searching for `q ++ '\n'` skips a whole line that does not end in `q`,
landing past the separator. -/
theorem firstOcc_skip_line (q X : List Char) : ∀ l : List Char,
    '\n' ∉ q → '\n' ∉ l → ¬ q <:+ l →
    firstOcc (l ++ '\n' :: X) (q ++ ['\n']) =
      (firstOcc X (q ++ ['\n'])).map (· + (l.length + 1)) := by
  intro l
  induction l with
  | nil =>
    intro hq _ hsuf
    have hnp : ¬ (q ++ ['\n']).isPrefixOf ('\n' :: X) := by
      intro hp
      have := pat_nl_prefix_line q [] X hq (by simp)
        (by simpa using List.isPrefixOf_iff_prefix.mp hp)
      exact hsuf (by simp [this])
    simp only [List.nil_append]
    rw [firstOcc_cons '\n' X (q ++ ['\n']), if_neg hnp]
    cases hfo : firstOcc X (q ++ ['\n']) <;> simp
  | cons c l' ih =>
    intro hq hl hsuf
    have hl' : '\n' ∉ l' := fun hm => hl (List.mem_cons.mpr (Or.inr hm))
    have hsuf' : ¬ q <:+ l' := fun hs =>
      hsuf (List.IsSuffix.trans hs (List.suffix_cons c l'))
    have hnp : ¬ (q ++ ['\n']).isPrefixOf ((c :: l') ++ '\n' :: X) := by
      intro hp
      have := pat_nl_prefix_line q (c :: l') X hq hl
        (List.isPrefixOf_iff_prefix.mp hp)
      exact hsuf (this ▸ List.suffix_refl (c :: l'))
    rw [List.cons_append]
    rw [firstOcc_cons c (l' ++ '\n' :: X) (q ++ ['\n']),
      if_neg (by simpa using hnp), ih hq hl' hsuf']
    cases hfo : firstOcc X (q ++ ['\n']) with
    | none => rfl
    | some p =>
      simp only [Option.map_some', Option.map_map, Function.comp_apply]
      have harith : p + (l'.length + 1) + 1 = p + ((c :: l').length + 1) := by
        simp only [List.length_cons]
        omega
      simp [harith]

/-- `firstOcc` of a nonempty text on itself. -/
theorem firstOcc_self (l : List Char) (h : l ≠ []) : firstOcc l l = some 0 := by
  cases l with
  | nil => cases h rfl
  | cons c t =>
    rw [firstOcc_cons c t (c :: t),
      if_pos (List.isPrefixOf_iff_prefix.mpr (List.prefix_refl (c :: t)))]

/-- A terminator-clean line list joined with a final `end_header` line and a
final empty line has its first `end_header\n` exactly at the end. -/
theorem firstOcc_joinNl_terminal (M : List (List Char))
    (h : ∀ l ∈ M, '\n' ∉ l ∧ ¬ ehLine <:+ l) :
    firstOcc (joinNl (M ++ [ehLine, []])) endPat =
      some ((joinNl (M ++ [ehLine, []])).length - endPat.length) := by
  have hpat : endPat = ehLine ++ ['\n'] := by decide
  induction M with
  | nil =>
    have hjoin : joinNl ([] ++ [ehLine, []]) = endPat := by decide
    rw [hjoin, firstOcc_self endPat (by decide)]
    decide
  | cons m M' ih =>
    have hm := h m (List.mem_cons_self m _)
    have hjoin : joinNl ((m :: M') ++ [ehLine, []]) =
        m ++ '\n' :: joinNl (M' ++ [ehLine, []]) := by
      show joinChar '\n' (m :: (M' ++ [ehLine, []])) = _
      exact joinChar_cons_cons '\n' m _ (by simp)
    rw [hjoin, hpat]
    rw [firstOcc_skip_line ehLine (joinNl (M' ++ [ehLine, []])) m
      (by decide) hm.1 hm.2]
    have hrec := ih (fun l hl => h l (List.mem_cons.mpr (Or.inr hl)))
    rw [hpat] at hrec
    rw [hrec]
    have hocc := firstOcc_some_occurs (joinNl (M' ++ [ehLine, []]))
      (ehLine ++ ['\n']) _ hrec
    have hlen : (ehLine ++ ['\n']).length ≤
        (joinNl (M' ++ [ehLine, []])).length -
          ((joinNl (M' ++ [ehLine, []])).length - endPat.length) := by
      have := hocc.length_le
      rw [List.length_drop] at this
      exact this
    simp only [Option.map_some']
    congr 1
    rw [← hpat]
    simp only [List.length_append, List.length_cons]
    have h11 : endPat.length = 11 := by decide
    rw [h11] at *
    simp only [List.length_append, List.length_singleton] at hlen
    have h10 : ehLine.length = 10 := by decide
    rw [h10] at hlen
    omega

/-- The regex search skips a whole line free of `element vertex`. -/
theorem findVertexCount_skip_line (X : List Char) : ∀ l : List Char,
    '\n' ∉ l → hasSubstr l evBase = false →
    findVertexCount (l ++ '\n' :: X) = findVertexCount X := by
  intro l
  induction l with
  | nil =>
    intro _ _
    have hnp : evMatchAt ('\n' :: X) = none := by
      unfold evMatchAt
      rw [if_neg ?hne]
      case hne =>
        intro hp
        have hpre := List.isPrefixOf_iff_prefix.mp hp
        have := prefix_line_of_no_nl evSp [] X (by decide) (by decide)
          (by simpa using hpre)
        revert this
        decide
    simp only [List.nil_append]
    rw [findVertexCount_cons '\n' X, hnp]
  | cons c l' ih =>
    intro hl hsub
    have hl' : '\n' ∉ l' := fun hm => hl (List.mem_cons.mpr (Or.inr hm))
    have hsub' : hasSubstr l' evBase = false := by
      by_contra hne
      rw [hasSubstr_cons_of c l' evBase (by
        cases hsg : hasSubstr l' evBase
        · exact absurd hsg hne
        · rfl)] at hsub
      cases hsub
    have hnp : evMatchAt (c :: (l' ++ '\n' :: X)) = none := by
      unfold evMatchAt
      rw [if_neg ?hne2]
      case hne2 =>
        intro hp
        have hpre := List.isPrefixOf_iff_prefix.mp hp
        have hbase : evBase <+: ((c :: l') ++ '\n' :: X) := by
          rw [List.cons_append]
          exact List.IsPrefix.trans (by decide : evBase <+: evSp) hpre
        have := prefix_line_of_no_nl evBase (c :: l') X (by decide) (by decide) hbase
        rw [hasSubstr_of_starts (c :: l') evBase this] at hsub
        cases hsub
    rw [List.cons_append, findVertexCount_cons c (l' ++ '\n' :: X), hnp]
    exact ih hl' hsub'

/-- `takeWhile` stops exactly at the first failing element after a clean
run. -/
theorem takeWhile_append_stop (p : Char → Bool) (a : List Char) (c : Char)
    (b : List Char) (ha : ∀ x ∈ a, p x = true) (hc : p c = false) :
    (a ++ c :: b).takeWhile p = a := by
  induction a with
  | nil => simp [List.takeWhile_cons, hc]
  | cons x a' ih =>
    have hx := ha x (List.mem_cons_self x a')
    rw [List.cons_append, List.takeWhile_cons, hx]
    simp only [if_true]
    rw [ih (fun y hy => ha y (List.mem_cons.mpr (Or.inr hy)))]

/-- The regex matches the rewritten vertex-count line and captures exactly
its numeral. -/
theorem findVertexCount_hit (n : Nat) (X : List Char) :
    findVertexCount (evLine n ++ '\n' :: X) = some n := by
  have hmatch : evMatchAt (evLine n ++ '\n' :: X) = some n := by
    unfold evMatchAt
    rw [if_pos ?hpre]
    case hpre =>
      refine List.isPrefixOf_iff_prefix.mpr ?_
      rw [evLine, List.append_assoc]
      exact List.prefix_append evSp _
    have hdrop : (evLine n ++ '\n' :: X).drop evSp.length =
        natDigits n ++ '\n' :: X := by
      rw [evLine, List.append_assoc]
      exact List.drop_left evSp _
    rw [hdrop]
    rw [takeWhile_append_stop Char.isDigit (natDigits n) '\n' X
      (by
        intro x hx
        rw [natDigits_eq_list] at hx
        exact natDigitsList_all_digit n x hx)
      (by decide)]
    have hne : (natDigits n).isEmpty = false := by
      rw [natDigits_eq_list]
      cases hd : natDigitsList n with
      | nil => exact absurd hd (natDigitsList_ne_nil n)
      | cons y ys => rfl
    simp only [hne, Bool.false_eq_true, if_false]
    rw [natDigits_eq_list, parseDigits_natDigitsList]
  cases hL : evLine n ++ '\n' :: X with
  | nil =>
    exfalso
    rcases List.append_eq_nil.mp hL with ⟨_, h2⟩
    cases h2
  | cons c t =>
    rw [findVertexCount_cons c t, ← hL, hmatch]

/-! ## Structure of rewritten chunk headers -/

/-- A map that fixes every element of a list fixes the list. -/
theorem map_id_on (f : List Char → List Char) (L : List (List Char))
    (h : ∀ l ∈ L, f l = l) : L.map f = L := by
  induction L with
  | nil => rfl
  | cons x t ih =>
    rw [List.map_cons, h x (List.mem_cons_self x t),
      ih (fun l hl => h l (List.mem_cons.mpr (Or.inr hl)))]

/-- Every rewritten vertex-count line contains `element vertex`. -/
theorem hasSubstr_evLine (n : Nat) : hasSubstr (evLine n) evBase = true := by
  refine hasSubstr_of_starts (evLine n) evBase ?_
  exact List.IsPrefix.trans (by decide : evBase <+: evSp)
    (List.prefix_append evSp (natDigits n))

/-- The vertex-count line never ends in `end_header`. -/
theorem ehLine_not_suffix_evLine (n : Nat) : ¬ ehLine <:+ evLine n := by
  intro h
  rcases h with ⟨t, ht⟩
  have hdig_ne : natDigits n ≠ [] := by
    rw [natDigits_eq_list]
    exact natDigitsList_ne_nil n
  have h1 : (evLine n).getLast? = some 'r' := by
    rw [← ht, List.getLast?_append_of_ne_nil _ (by decide : ehLine ≠ [])]
    decide
  have h2 : (evLine n).getLast? = (natDigits n).getLast? := by
    rw [evLine]
    exact List.getLast?_append_of_ne_nil _ hdig_ne
  have h3 : ('r' : Char) ∈ natDigits n :=
    List.mem_of_getLast?_eq_some (h2 ▸ h1)
  rw [natDigits_eq_list] at h3
  have := natDigitsList_all_digit n 'r' h3
  revert this
  decide

/-- The full rewritten-line list of a well-formed header. -/
theorem createChunkHeader_eq (originalHeader : List Char)
    (pre post : List (List Char)) (k n : Nat)
    (hsplit : splitOnNl originalHeader =
      pre ++ evLine k :: (post ++ [ehLine, []]))
    (hclean : ∀ l ∈ pre ++ post, hasSubstr l evBase = false) :
    createChunkHeader originalHeader n =
      joinNl (pre ++ evLine n :: (post ++ [ehLine, []])) := by
  have hmap : (pre ++ evLine k :: (post ++ [ehLine, []])).map
      (fun line => if hasSubstr line evBase then evLine n else line) =
      pre ++ evLine n :: (post ++ [ehLine, []]) := by
    rw [List.map_append, List.map_cons, List.map_append]
    rw [map_id_on _ pre (fun l hl => by
      rw [hclean l (List.mem_append.mpr (Or.inl hl))]
      simp)]
    rw [map_id_on _ post (fun l hl => by
      rw [hclean l (List.mem_append.mpr (Or.inr hl))]
      simp)]
    rw [if_pos (hasSubstr_evLine k)]
    have heh : (if hasSubstr ehLine evBase = true then evLine n else ehLine) =
        ehLine := by
      rw [if_neg (by decide)]
    have hnil : (if hasSubstr [] evBase = true then evLine n else ([] : List Char)) =
        [] := by
      rw [if_neg (by decide)]
    simp only [List.map_cons, List.map_nil, heh, hnil]
  have hlast : (joinNl (pre ++ evLine n :: (post ++ [ehLine, []]))).getLast? =
      some '\n' := by
    have hshape : pre ++ evLine n :: (post ++ [ehLine, []]) =
        (pre ++ evLine n :: (post ++ [ehLine])) ++ [[]] := by
      simp
    rw [hshape]
    exact joinNl_append_nil_getLast _ (by simp)
  show (let lines := splitOnNl originalHeader
    let modifiedLines := lines.map (fun line =>
      if hasSubstr line evBase then evLine n else line)
    let header := joinNl modifiedLines
    if header.getLast? = some '\n' then header else header ++ ['\n']) = _
  simp only [hsplit, hmap]
  rw [if_pos hlast]

/-- Rewriting a well-formed header with its own vertex count reproduces it
byte for byte. -/
theorem createChunkHeader_self (originalHeader : List Char)
    (pre post : List (List Char)) (k : Nat)
    (hsplit : splitOnNl originalHeader =
      pre ++ evLine k :: (post ++ [ehLine, []]))
    (hclean : ∀ l ∈ pre ++ post, hasSubstr l evBase = false) :
    createChunkHeader originalHeader k = originalHeader := by
  rw [createChunkHeader_eq originalHeader pre post k k hsplit hclean, ← hsplit]
  exact joinChar_splitOnChar '\n' originalHeader

/-- Lines of any split are newline-free. -/
theorem mem_split_no_nl (originalHeader : List Char)
    (pre post : List (List Char)) (k : Nat)
    (hsplit : splitOnNl originalHeader =
      pre ++ evLine k :: (post ++ [ehLine, []])) :
    ∀ l ∈ pre ++ post, '\n' ∉ l := by
  intro l hl
  refine splitOnChar_no_sep '\n' originalHeader l ?_
  show l ∈ splitOnNl originalHeader
  rw [hsplit]
  rcases List.mem_append.mp hl with h | h
  · exact List.mem_append.mpr (Or.inl h)
  · refine List.mem_append.mpr (Or.inr ?_)
    refine List.mem_cons.mpr (Or.inr ?_)
    exact List.mem_append.mpr (Or.inl h)

/-- The first `end_header\n` of a rewritten chunk header sits exactly at its
end. -/
theorem chunkHeader_firstOcc (pre post : List (List Char)) (n : Nat)
    (hnl : ∀ l ∈ pre ++ post, '\n' ∉ l)
    (hsuf : ∀ l ∈ pre ++ post, ¬ ehLine <:+ l) :
    firstOcc (joinNl (pre ++ evLine n :: (post ++ [ehLine, []]))) endPat =
      some ((joinNl (pre ++ evLine n :: (post ++ [ehLine, []]))).length -
        endPat.length) := by
  have hshape : pre ++ evLine n :: (post ++ [ehLine, []]) =
      (pre ++ evLine n :: post) ++ [ehLine, []] := by
    simp
  rw [hshape]
  refine firstOcc_joinNl_terminal (pre ++ evLine n :: post) ?_
  intro l hl
  rcases List.mem_append.mp hl with h | h
  · exact ⟨hnl l (List.mem_append.mpr (Or.inl h)),
      hsuf l (List.mem_append.mpr (Or.inl h))⟩
  · rcases List.mem_cons.mp h with rfl | h2
    · exact ⟨evLine_no_nl n, ehLine_not_suffix_evLine n⟩
    · exact ⟨hnl l (List.mem_append.mpr (Or.inr h2)),
        hsuf l (List.mem_append.mpr (Or.inr h2))⟩

/-- Stripping a chunk file whose header's first terminator is terminal
recovers exactly the payload bytes. -/
theorem readChunkData_append (H D : List Char)
    (h : firstOcc H endPat = some (H.length - endPat.length)) :
    readChunkData (H ++ D) = D := by
  have hocc := firstOcc_some_occurs H endPat _ h
  have hlen : endPat.length ≤ H.length := by
    have := hocc.length_le
    rw [List.length_drop] at this
    omega
  have happ : firstOcc (H ++ D) endPat = some (H.length - endPat.length) :=
    firstOcc_append_of_some H D endPat _ h (by omega)
  unfold readChunkData headerEndIndexOf jsIndexOf
  rw [happ]
  have hcast : (((H.length - endPat.length : Nat) : Int) +
      (endPat.length : Int)).toNat = H.length := by omega
  rw [hcast, List.drop_left]

/-! ## Byte-range partition arithmetic -/

/-- Adjacent byte ranges glue into one. -/
theorem sliceBytes_glue (l : List Char) (x y z : Nat)
    (h1 : x ≤ y) (h2 : y ≤ z) :
    sliceBytes l x y ++ sliceBytes l y z = sliceBytes l x z := by
  unfold sliceBytes
  have hdrop : l.drop y = (l.drop x).drop (y - x) := by
    rw [List.drop_drop]
    congr 1
    omega
  rw [hdrop]
  have htake := List.take_add (l.drop x) (y - x) (z - y)
  rw [← htake]
  congr 1
  omega

/-- The concatenation of a monotone ladder of byte ranges is the whole
spanned range. -/
theorem flatten_slices (P : List Char) (a : Nat → Nat)
    (hmono : ∀ i, a i ≤ a (i + 1)) : ∀ k : Nat,
    ((List.range k).map (fun i => sliceBytes P (a i) (a (i + 1)))).flatten =
      sliceBytes P (a 0) (a k) := by
  have hchain : ∀ m, a 0 ≤ a m := by
    intro m
    induction m with
    | zero => exact le_refl _
    | succ m ih => exact le_trans ih (hmono m)
  intro k
  induction k with
  | zero => simp [sliceBytes]
  | succ k ih =>
    rw [List.range_succ, List.map_append, List.flatten_append, ih]
    simp only [List.map_cons, List.map_nil, List.flatten_cons, List.flatten_nil,
      List.append_nil]
    exact sliceBytes_glue P (a 0) (a k) (a (k + 1)) (hchain k) (hmono k)

/-- Telescoping sum of successive differences of a monotone sequence. -/
theorem sum_telescope (b : Nat → Nat) (hmono : ∀ i, b i ≤ b (i + 1)) :
    ∀ k : Nat,
    ((List.range k).map (fun i => b (i + 1) - b i)).sum = b k - b 0 := by
  have hchain : ∀ m, b 0 ≤ b m := by
    intro m
    induction m with
    | zero => exact le_refl _
    | succ m ih => exact le_trans ih (hmono m)
  intro k
  induction k with
  | zero => simp
  | succ k ih =>
    rw [List.range_succ, List.map_append, List.sum_append, ih]
    simp only [List.map_cons, List.map_nil, List.sum_cons, List.sum_nil]
    have h1 := hchain k
    have h2 := hmono k
    omega

/-- The exact-division byte offset of the split loop: with a payload of
exactly `N * w` bytes, `floor(s * (length / N))` is `s * w`. -/
theorem floor_scaled (s N w : Nat) (hN : 0 < N) :
    (⌊(s : ℚ) * (((N * w : Nat) : ℚ) / (N : ℚ))⌋).toNat = s * w := by
  have hNne : (N : ℚ) ≠ 0 := Nat.cast_ne_zero.mpr (by omega)
  have h1 : ((N * w : Nat) : ℚ) / (N : ℚ) = (w : ℚ) := by
    push_cast
    rw [mul_comm]
    exact mul_div_cancel_right₀ (w : ℚ) hNne
  rw [h1, ← Nat.cast_mul, Int.floor_natCast]
  exact Int.toNat_natCast (s * w)

/-- `Math.ceil(N / vpc)` via `(N + vpc - 1) / vpc`: the chunk count covers
all vertices and wastes less than one chunk. -/
theorem numChunksOf_bounds (N vpc : Nat) (h : 0 < vpc) :
    N ≤ numChunksOf N vpc * vpc ∧ numChunksOf N vpc * vpc ≤ N + vpc - 1 := by
  have hdm := Nat.div_add_mod (N + vpc - 1) vpc
  have hmlt : (N + vpc - 1) % vpc < vpc := Nat.mod_lt _ h
  unfold numChunksOf
  rw [Nat.mul_comm]
  omega

/-- The chunk file written for index `i`, in normal form, when the payload
divides evenly into `N` records of `w` bytes. -/
theorem chunkFileAt_eq (originalHeader vertexData : List Char)
    (N w vpc i : Nat) (hN : 0 < N) (hlen : vertexData.length = N * w) :
    chunkFileAt originalHeader vertexData N vpc i =
      createChunkHeader originalHeader (chunkNumVertices N vpc i) ++
        sliceBytes vertexData (i * vpc * w) (min ((i + 1) * vpc) N * w) := by
  unfold chunkFileAt chunkNumVertices
  rw [hlen]
  dsimp only
  rw [floor_scaled (i * vpc) N w hN, floor_scaled (min ((i + 1) * vpc) N) N w hN]

/-! ## C6: header rewriting touches only the vertex-count numeral -/

/-- Claim C6: for a well-formed header — its lines are some `element
vertex`-free lines `pre`, the line `element vertex <k>`, more clean lines
`post`, the terminator and a final empty line — rewriting to a new count
`n` produces a header with exactly the same lines in the same positions,
except that the vertex-count line now reads `element vertex <n>`; only the
numeral differs, and the result ends with a newline. -/
theorem c6_header_rewrite (originalHeader : List Char)
    (pre post : List (List Char)) (k n : Nat)
    (hsplit : splitOnNl originalHeader =
      pre ++ evLine k :: (post ++ [ehLine, []]))
    (hclean : ∀ l ∈ pre ++ post, hasSubstr l evBase = false) :
    splitOnNl (createChunkHeader originalHeader n) =
      pre ++ evLine n :: (post ++ [ehLine, []]) ∧
    (createChunkHeader originalHeader n).getLast? = some '\n' := by
  have heq := createChunkHeader_eq originalHeader pre post k n hsplit hclean
  have hnl := mem_split_no_nl originalHeader pre post k hsplit
  constructor
  · rw [heq]
    refine splitOnChar_joinChar '\n' _ (by simp) ?_
    intro l hl
    rcases List.mem_append.mp hl with h | h
    · exact hnl l (List.mem_append.mpr (Or.inl h))
    · rcases List.mem_cons.mp h with rfl | h2
      · exact evLine_no_nl n
      · rcases List.mem_append.mp h2 with h3 | h3
        · exact hnl l (List.mem_append.mpr (Or.inr h3))
        · rcases List.mem_cons.mp h3 with rfl | h4
          · decide
          · rcases List.mem_cons.mp h4 with rfl | h5
            · simp
            · cases h5
  · rw [heq]
    have hshape : pre ++ evLine n :: (post ++ [ehLine, []]) =
        (pre ++ evLine n :: (post ++ [ehLine])) ++ [[]] := by
      simp
    rw [hshape]
    exact joinNl_append_nil_getLast _ (by simp)

/-- Witness for `c6_header_rewrite`: rewriting a concrete three-line header
from count 2 to count 7. -/
theorem c6_header_rewrite_witness :
    splitOnNl (createChunkHeader "ply\nelement vertex 2\nend_header\n".toList 7) =
      ["ply".toList] ++ evLine 7 :: ([] ++ [ehLine, []]) ∧
    (createChunkHeader "ply\nelement vertex 2\nend_header\n".toList 7).getLast? =
      some '\n' :=
  c6_header_rewrite "ply\nelement vertex 2\nend_header\n".toList
    ["ply".toList] [] 2 7 (by decide) (by decide)

/-! ## C2: split followed by a full merge is the identity -/

/-- The leftmost regex match in a chunk file is the rewritten vertex-count
line of its header, whatever payload bytes follow. -/
theorem findVertexCount_chunk (post : List (List Char)) (n : Nat)
    (X : List Char) : ∀ pre : List (List Char),
    (∀ l ∈ pre, '\n' ∉ l) → (∀ l ∈ pre, hasSubstr l evBase = false) →
    findVertexCount
      (joinNl (pre ++ evLine n :: (post ++ [ehLine, []])) ++ X) = some n := by
  intro pre
  induction pre with
  | nil =>
    intro _ _
    have hjoin : joinNl ([] ++ evLine n :: (post ++ [ehLine, []])) =
        evLine n ++ '\n' :: joinNl (post ++ [ehLine, []]) := by
      show joinChar '\n' (evLine n :: (post ++ [ehLine, []])) = _
      exact joinChar_cons_cons '\n' _ _ (by simp)
    rw [hjoin, List.append_assoc, List.cons_append]
    exact findVertexCount_hit n _
  | cons m pre' ih =>
    intro hnl hsub
    have hjoin : joinNl ((m :: pre') ++ evLine n :: (post ++ [ehLine, []])) =
        m ++ '\n' :: joinNl (pre' ++ evLine n :: (post ++ [ehLine, []])) := by
      show joinChar '\n' (m :: (pre' ++ evLine n :: (post ++ [ehLine, []]))) = _
      exact joinChar_cons_cons '\n' _ _ (by simp)
    rw [hjoin, List.append_assoc, List.cons_append]
    rw [findVertexCount_skip_line _ m (hnl m (List.mem_cons_self m pre'))
      (hsub m (List.mem_cons_self m pre'))]
    exact ih (fun l hl => hnl l (List.mem_cons.mpr (Or.inr hl)))
      (fun l hl => hsub l (List.mem_cons.mpr (Or.inr hl)))

/-- Claim C2: for a well-formed header whose declared vertex count `N`
matches a payload of exactly `N` records of `w` bytes, splitting into
chunks (any vertex budget `vpc ≥ 1`, as produced by the sizing formula)
and then merging all chunks in order — what `createGroups` does for
`groupSize = −1` — reproduces the original file byte for byte: the merged
header equals the original header (so every line other than the
vertex-count line is trivially unchanged), the merged payload is
byte-identical to the original, and the declared count is again `N`. -/
theorem c2_split_merge_roundtrip (originalHeader payload : List Char)
    (pre post : List (List Char)) (N w vpc : Nat)
    (hsplit : splitOnNl originalHeader =
      pre ++ evLine N :: (post ++ [ehLine, []]))
    (hclean : ∀ l ∈ pre ++ post, hasSubstr l evBase = false ∧ ¬ ehLine <:+ l)
    (hlen : payload.length = N * w) (hvpc : 1 ≤ vpc) :
    mergeChunksModel originalHeader
        (splitChunkFiles originalHeader payload N vpc) =
      (originalHeader ++ payload, N) := by
  have hclean1 : ∀ l ∈ pre ++ post, hasSubstr l evBase = false :=
    fun l hl => (hclean l hl).1
  have hclean2 : ∀ l ∈ pre ++ post, ¬ ehLine <:+ l :=
    fun l hl => (hclean l hl).2
  have hnl := mem_split_no_nl originalHeader pre post N hsplit
  rcases Nat.eq_zero_or_pos N with rfl | hN
  · have hk : numChunksOf 0 vpc = 0 := by
      unfold numChunksOf
      exact Nat.div_eq_of_lt (by omega)
    have hpay : payload = [] := List.length_eq_zero.mp (by omega)
    unfold splitChunkFiles
    rw [hk]
    simp only [List.range_zero, List.map_nil]
    unfold mergeChunksModel
    simp only [List.foldl_nil]
    rw [createChunkHeader_self originalHeader pre post 0 hsplit hclean1, hpay]
  · obtain ⟨hb1, hb2⟩ := numChunksOf_bounds N vpc (by omega)
    have hstart : ∀ i, i < numChunksOf N vpc → i * vpc ≤ N := by
      intro i hi
      have h2 : (i + 1) * vpc ≤ numChunksOf N vpc * vpc :=
        Nat.mul_le_mul_right vpc hi
      have h3 : i * vpc + vpc = (i + 1) * vpc := by ring
      omega
    have hmono : ∀ i, min (i * vpc) N * w ≤ min ((i + 1) * vpc) N * w := by
      intro i
      refine Nat.mul_le_mul_right w ?_
      exact min_le_min (Nat.mul_le_mul_right vpc (by omega)) (le_refl N)
    have hchunks : splitChunkFiles originalHeader payload N vpc =
        (List.range (numChunksOf N vpc)).map (fun i =>
          joinNl (pre ++ evLine (chunkNumVertices N vpc i) ::
            (post ++ [ehLine, []])) ++
          sliceBytes payload (min (i * vpc) N * w)
            (min ((i + 1) * vpc) N * w)) := by
      unfold splitChunkFiles
      refine List.map_congr_left ?_
      intro i hi
      rw [List.mem_range] at hi
      rw [chunkFileAt_eq originalHeader payload N w vpc i hN hlen]
      rw [createChunkHeader_eq originalHeader pre post N
        (chunkNumVertices N vpc i) hsplit hclean1]
      rw [min_eq_left (hstart i hi)]
    rw [hchunks]
    unfold mergeChunksModel
    rw [mergeStep_foldl]
    have hdata : ((List.range (numChunksOf N vpc)).map (fun i =>
          joinNl (pre ++ evLine (chunkNumVertices N vpc i) ::
            (post ++ [ehLine, []])) ++
          sliceBytes payload (min (i * vpc) N * w)
            (min ((i + 1) * vpc) N * w))).map readChunkData =
        (List.range (numChunksOf N vpc)).map (fun i =>
          sliceBytes payload (min (i * vpc) N * w)
            (min ((i + 1) * vpc) N * w)) := by
      rw [List.map_map]
      refine List.map_congr_left ?_
      intro i _
      exact readChunkData_append _ _
        (chunkHeader_firstOcc pre post (chunkNumVertices N vpc i) hnl hclean2)
    have hcounts : ((List.range (numChunksOf N vpc)).map (fun i =>
          joinNl (pre ++ evLine (chunkNumVertices N vpc i) ::
            (post ++ [ehLine, []])) ++
          sliceBytes payload (min (i * vpc) N * w)
            (min ((i + 1) * vpc) N * w))).map
          (fun c => (findVertexCount c).getD 0) =
        (List.range (numChunksOf N vpc)).map
          (fun i => chunkNumVertices N vpc i) := by
      rw [List.map_map]
      refine List.map_congr_left ?_
      intro i _
      show (findVertexCount _).getD 0 = chunkNumVertices N vpc i
      rw [findVertexCount_chunk post (chunkNumVertices N vpc i) _ pre
        (fun l hl => hnl l (List.mem_append.mpr (Or.inl hl)))
        (fun l hl => hclean1 l (List.mem_append.mpr (Or.inl hl)))]
      rfl
    have hflat : ((List.range (numChunksOf N vpc)).map (fun i =>
          sliceBytes payload (min (i * vpc) N * w)
            (min ((i + 1) * vpc) N * w))).flatten = payload := by
      rw [flatten_slices payload (fun i => min (i * vpc) N * w) hmono
        (numChunksOf N vpc)]
      have h0 : min (0 * vpc) N * w = 0 := by simp
      have hk2 : min (numChunksOf N vpc * vpc) N * w = N * w := by
        rw [min_eq_right hb1]
      show sliceBytes payload (min (0 * vpc) N * w)
        (min (numChunksOf N vpc * vpc) N * w) = payload
      rw [h0, hk2]
      unfold sliceBytes
      rw [List.drop_zero, Nat.sub_zero, ← hlen, List.take_length]
    have hsum : ((List.range (numChunksOf N vpc)).map
          (fun i => chunkNumVertices N vpc i)).sum = N := by
      have hcong : (List.range (numChunksOf N vpc)).map
            (fun i => chunkNumVertices N vpc i) =
          (List.range (numChunksOf N vpc)).map
            (fun i => min ((i + 1) * vpc) N - min (i * vpc) N) := by
        refine List.map_congr_left ?_
        intro i hi
        rw [List.mem_range] at hi
        show chunkNumVertices N vpc i = _
        unfold chunkNumVertices
        rw [min_eq_left (hstart i hi)]
      rw [hcong]
      rw [sum_telescope (fun i => min (i * vpc) N)
        (fun i => min_le_min (Nat.mul_le_mul_right vpc (by omega)) (le_refl N))
        (numChunksOf N vpc)]
      show min (numChunksOf N vpc * vpc) N - min (0 * vpc) N = N
      rw [min_eq_right hb1]
      simp
    rw [hdata, hcounts, hflat, hsum]
    simp only [List.nil_append, Nat.zero_add]
    rw [createChunkHeader_self originalHeader pre post N hsplit hclean1]

/-- Witness for `c2_split_merge_roundtrip`: a concrete header declaring 2
vertices of 3 bytes over the payload `abcdef`, split with one vertex per
chunk and merged back. -/
theorem c2_split_merge_roundtrip_witness :
    mergeChunksModel "ply\nelement vertex 2\nend_header\n".toList
        (splitChunkFiles "ply\nelement vertex 2\nend_header\n".toList
          "abcdef".toList 2 1) =
      ("ply\nelement vertex 2\nend_header\n".toList ++ "abcdef".toList, 2) :=
  c2_split_merge_roundtrip "ply\nelement vertex 2\nend_header\n".toList
    "abcdef".toList ["ply".toList] [] 2 3 1 (by decide) (by decide)
    (by decide) (by decide)

end OnChainGS
